import Mathlib

/-!
Verification of the distance-matrix component and the ordered-crossover
operator of a genetic TSP solver.

The distance matrix (struct DistanceMat in src/src/distance_mat.rs) stores a
table of f64 distances; we embed the numeric type as the rationals, modelling
the arithmetic of the summation exactly.  Rust slice indexing panics when out
of bounds; we model a panicking computation by an Option result, with none for
any panic (index out of bounds, or the underflow of route.len() - 1 on the
empty route).
-/

/-- The numeric type of distances; the embedding of f64. -/
abbrev DistVal := ℚ

/-- Embedding of struct DistanceMat: a table of distances. -/
structure DistanceMat where
  distances : List (List DistVal)
deriving DecidableEq

namespace DistanceMat

/-- Embedding of DistanceMat::new: stores the given table unchanged,
performing no validation (the Rust constructor is a plain struct literal). -/
def new (distances : List (List DistVal)) : DistanceMat :=
  { distances := distances }

/-- Embedding of DistanceMat::n_units: the length of the outer vector. -/
def n_units (m : DistanceMat) : Nat :=
  m.distances.length

/-- Embedding of the Rust indexing expression self.distances[i][j]:
none models the out-of-bounds panic. -/
def entry (m : DistanceMat) (i j : Nat) : Option DistVal :=
  match m.distances.get? i with
  | none => none
  | some row => row.get? j

/-- Embedding of the closure folded over the route in get_distance.
The accumulator is (loss, last_point); none models a panic already raised. -/
def step (m : DistanceMat) :
    Option (DistVal × Option Nat) → Nat → Option (DistVal × Option Nat)
  | none, _ => none
  | some (loss, lastPoint), currentPoint =>
    match lastPoint with
    | none => some (loss, some currentPoint)
    | some lp =>
      match m.entry lp currentPoint with
      | none => none
      | some d => some (loss + d, some currentPoint)

/-- Embedding of DistanceMat::get_distance: fold over the route starting from
the wrap-around term self.distances[route[route.len() - 1]][route[0]].
On the empty route the index computation route.len() - 1 underflows and the
call panics, modelled by none. -/
def get_distance (m : DistanceMat) (route : List Nat) : Option DistVal :=
  match route with
  | [] => none
  | a :: rest =>
    match m.entry ((a :: rest).getLast (List.cons_ne_nil a rest)) a with
    | none => none
    | some init =>
      ((a :: rest).foldl m.step (some (init, none))).map Prod.fst

/-- Total lookup into the table (default 0), used to state specifications. -/
def dAt (m : DistanceMat) (i j : Nat) : DistVal :=
  (m.distances.getD i []).getD j 0

/-- The table is square: every row is as long as the table itself. -/
def Square (m : DistanceMat) : Prop :=
  ∀ row ∈ m.distances, row.length = m.distances.length

/-- The table is symmetric on its in-range entries. -/
def Symm (m : DistanceMat) : Prop :=
  ∀ i, i < m.n_units → ∀ j, j < m.n_units → m.dAt i j = m.dAt j i

/-- The sum of distances over the consecutive pairs of a sequence. -/
def pathSum (m : DistanceMat) (s : List Nat) : DistVal :=
  ((s.zip s.tail).map (fun p => m.dAt p.1 p.2)).sum

/-- The round-trip length of a sequence per the specification: the wrap-around
term from the last element back to the first, plus the consecutive-pair sum. -/
def tourLen (m : DistanceMat) (s : List Nat) : DistVal :=
  m.dAt (s.getLastD 0) (s.headD 0) + m.pathSum s

end DistanceMat

/-- The three-node example table of the specification and the Rust tests. -/
def testMat : DistanceMat :=
  DistanceMat.new [[0, 1, 2], [1, 0, 3], [2, 3, 0]]

namespace DistanceMat

theorem pathSum_nil (m : DistanceMat) : m.pathSum [] = 0 := rfl

theorem pathSum_single (m : DistanceMat) (a : Nat) : m.pathSum [a] = 0 := rfl

theorem pathSum_cons_cons (m : DistanceMat) (a b : Nat) (l : List Nat) :
    m.pathSum (a :: b :: l) = m.dAt a b + m.pathSum (b :: l) := by
  simp [pathSum]

/-- In-range lookups in a square table succeed and agree with dAt. -/
theorem entry_eq_dAt (m : DistanceMat) (hsq : m.Square) {i j : Nat}
    (hi : i < m.n_units) (hj : j < m.n_units) :
    m.entry i j = some (m.dAt i j) := by
  have hi' : i < m.distances.length := hi
  have hrowmem : m.distances.get ⟨i, hi'⟩ ∈ m.distances :=
    List.get_mem m.distances i hi'
  have hrowlen : (m.distances.get ⟨i, hi'⟩).length = m.distances.length :=
    hsq _ hrowmem
  have hj' : j < (m.distances.get ⟨i, hi'⟩).length := by
    rw [hrowlen]; exact hj
  have hj2 : j < m.distances[i].length := by simpa using hj'
  simp only [entry, dAt, List.get?_eq_getElem?, List.getD_eq_getElem?_getD]
  rw [List.getElem?_eq_getElem hi']
  simp only [Option.getD_some]
  rw [List.getElem?_eq_getElem hj2, Option.getD_some]

/-- Characterisation of the fold once a last point is present: it adds the
distances of the consecutive pairs and tracks the last element seen. -/
theorem foldl_step_spec (m : DistanceMat) (hsq : m.Square) :
    ∀ (l : List Nat) (p : Nat) (acc : DistVal), p < m.n_units →
      (∀ x ∈ l, x < m.n_units) →
      l.foldl m.step (some (acc, some p)) =
        some (acc + m.pathSum (p :: l), some (l.getLastD p)) := by
  intro l
  induction l with
  | nil =>
    intro p acc hp hl
    simp [step, pathSum, List.getLastD]
  | cons c l ih =>
    intro p acc hp hl
    have hc : c < m.n_units := hl c (by simp)
    have hl2 : ∀ x ∈ l, x < m.n_units := fun x hx => hl x (by simp [hx])
    have hstep : m.step (some (acc, some p)) c =
        some (acc + m.dAt p c, some c) := by
      simp [step, entry_eq_dAt m hsq hp hc]
    calc (c :: l).foldl m.step (some (acc, some p))
        = l.foldl m.step (m.step (some (acc, some p)) c) := rfl
      _ = l.foldl m.step (some (acc + m.dAt p c, some c)) := by rw [hstep]
      _ = some (acc + m.dAt p c + m.pathSum (c :: l), some (l.getLastD c)) :=
          ih c (acc + m.dAt p c) hc hl2
      _ = some (acc + m.pathSum (p :: c :: l), some ((c :: l).getLastD p)) := by
          rw [pathSum_cons_cons, List.getLastD_cons, add_assoc]

/-- The central specification of get_distance: on a square table and a
nonempty in-range route it succeeds and returns the wrap-around term plus the
consecutive-pair sum. -/
theorem get_distance_eq_tourLen (m : DistanceMat) (s : List Nat)
    (hsq : m.Square) (hne : s ≠ []) (hin : ∀ x ∈ s, x < m.n_units) :
    m.get_distance s = some (m.tourLen s) := by
  match s with
  | a :: rest =>
    have hlast : (a :: rest).getLast (List.cons_ne_nil a rest) ∈ a :: rest :=
      List.getLast_mem _
    have hlastlt : (a :: rest).getLast (List.cons_ne_nil a rest) < m.n_units :=
      hin _ hlast
    have ha : a < m.n_units := hin a (by simp)
    have hrest : ∀ x ∈ rest, x < m.n_units := fun x hx => hin x (by simp [hx])
    have hentry := entry_eq_dAt m hsq hlastlt ha
    have hfirst : m.step (some (m.dAt ((a :: rest).getLast
        (List.cons_ne_nil a rest)) a, none)) a =
        some (m.dAt ((a :: rest).getLast (List.cons_ne_nil a rest)) a,
          some a) := by
      simp [step]
    have hfold := foldl_step_spec m hsq rest a
      (m.dAt ((a :: rest).getLast (List.cons_ne_nil a rest)) a) ha hrest
    have hlastD : (a :: rest).getLast (List.cons_ne_nil a rest) =
        (a :: rest).getLastD 0 := by
      rw [List.getLastD_eq_getLast?, List.getLast?_eq_getLast _ (List.cons_ne_nil a rest)]
      rfl
    simp only [get_distance, hentry]
    calc ((a :: rest).foldl m.step
          (some (m.dAt ((a :: rest).getLast (List.cons_ne_nil a rest)) a,
            none))).map Prod.fst
        = (rest.foldl m.step
          (some (m.dAt ((a :: rest).getLast (List.cons_ne_nil a rest)) a,
            some a))).map Prod.fst := by rw [List.foldl_cons, hfirst]
      _ = some (m.dAt ((a :: rest).getLast (List.cons_ne_nil a rest)) a +
            m.pathSum (a :: rest)) := by rw [hfold]; rfl
      _ = some (m.tourLen (a :: rest)) := by
            rw [tourLen, ← hlastD]; rfl

/-- Appending one element to a nonempty path adds one edge at its end. -/
theorem pathSum_concat (m : DistanceMat) (x : Nat) :
    ∀ (l : List Nat) (b : Nat),
      m.pathSum ((b :: l) ++ [x]) =
        m.pathSum (b :: l) + m.dAt ((b :: l).getLastD 0) x := by
  intro l
  induction l with
  | nil =>
    intro b
    simp [pathSum, List.getLastD]
  | cons c l2 ih =>
    intro b
    have hshape : ((b :: c :: l2) ++ [x]) = b :: c :: (l2 ++ [x]) := by simp
    have hshape2 : (c :: (l2 ++ [x])) = ((c :: l2) ++ [x]) := by simp
    rw [hshape, pathSum_cons_cons, hshape2, ih c, pathSum_cons_cons, add_assoc]
    simp [List.getLastD_cons]

/-- For a symmetric table the consecutive-pair sum is reversal invariant. -/
theorem pathSum_reverse (m : DistanceMat) (hsym : m.Symm) :
    ∀ (s : List Nat), (∀ x ∈ s, x < m.n_units) →
      m.pathSum s.reverse = m.pathSum s := by
  intro s
  induction s with
  | nil => intro _; rfl
  | cons a l ih =>
    intro hin
    have ha : a < m.n_units := hin a (by simp)
    have hl : ∀ x ∈ l, x < m.n_units := fun x hx => hin x (by simp [hx])
    match l with
    | [] => rfl
    | b :: l2 =>
      have hb : b < m.n_units := hl b (by simp)
      have hrevne : (b :: l2).reverse ≠ [] := by simp
      match hrev : (b :: l2).reverse with
      | [] => exact absurd hrev hrevne
      | c :: lr =>
        have hlastrev : (c :: lr).getLastD 0 = b := by
          rw [List.getLastD_eq_getLast?, ← hrev, List.getLast?_reverse]
          rfl
        calc m.pathSum ((a :: b :: l2).reverse)
            = m.pathSum ((c :: lr) ++ [a]) := by rw [List.reverse_cons, hrev]
          _ = m.pathSum (c :: lr) + m.dAt ((c :: lr).getLastD 0) a :=
              pathSum_concat m a lr c
          _ = m.pathSum ((b :: l2).reverse) + m.dAt b a := by
              rw [hrev, hlastrev]
          _ = m.pathSum (b :: l2) + m.dAt b a := by rw [ih hl]
          _ = m.dAt a b + m.pathSum (b :: l2) := by
              rw [hsym b hb a ha, add_comm]
          _ = m.pathSum (a :: b :: l2) := (pathSum_cons_cons m a b l2).symm

/-- For a symmetric table the round-trip length is reversal invariant. -/
theorem tourLen_reverse (m : DistanceMat) (hsym : m.Symm) (s : List Nat)
    (hne : s ≠ []) (hin : ∀ x ∈ s, x < m.n_units) :
    m.tourLen s.reverse = m.tourLen s := by
  have hhead : s.headD 0 ∈ s := by
    match s with
    | a :: l => simp [List.headD]
  have hlast : s.getLastD 0 ∈ s := by
    rw [List.getLastD_eq_getLast?, List.getLast?_eq_getLast _ hne,
      Option.getD_some]
    exact List.getLast_mem hne
  have h1 : s.reverse.getLastD 0 = s.headD 0 := by
    rw [List.getLastD_eq_getLast?, List.getLast?_reverse, List.headD_eq_head?]
  have h2 : s.reverse.headD 0 = s.getLastD 0 := by
    rw [List.headD_eq_head?, List.head?_reverse, List.getLastD_eq_getLast?]
  rw [tourLen, tourLen, h1, h2, pathSum_reverse m hsym s hin,
    hsym _ (hin _ hhead) _ (hin _ hlast)]

/-- Rotating a sequence by one position preserves the round-trip length. -/
theorem tourLen_rotate_one (m : DistanceMat) (a : Nat) (rest : List Nat) :
    m.tourLen (rest ++ [a]) = m.tourLen (a :: rest) := by
  match rest with
  | [] => rfl
  | b :: l =>
    have hlast1 : ((b :: l) ++ [a]).getLastD 0 = a := by
      rw [List.getLastD_eq_getLast?, List.getLast?_concat]
      rfl
    have hshape : ((b :: l) ++ [a]) = b :: (l ++ [a]) := by simp
    calc m.tourLen ((b :: l) ++ [a])
        = m.dAt a b + m.pathSum ((b :: l) ++ [a]) := by
          rw [tourLen, hlast1, hshape]
          rfl
      _ = m.dAt a b + (m.pathSum (b :: l) + m.dAt ((b :: l).getLastD 0) a) := by
          rw [pathSum_concat m a l b]
      _ = m.dAt ((b :: l).getLastD 0) a + (m.dAt a b + m.pathSum (b :: l)) := by
          ring
      _ = m.tourLen (a :: b :: l) := by
          rw [tourLen, pathSum_cons_cons]
          simp [List.getLastD_cons, List.headD]

/-- Rotating a sequence by any amount preserves the round-trip length. -/
theorem tourLen_rotate (m : DistanceMat) :
    ∀ (k : Nat) (s : List Nat), m.tourLen (s.rotate k) = m.tourLen s := by
  intro k
  induction k with
  | zero => intro s; rw [List.rotate_zero]
  | succ k ih =>
    intro s
    match s with
    | [] => rw [List.rotate_nil]
    | a :: rest =>
      rw [List.rotate_cons_succ, ih (rest ++ [a]), tourLen_rotate_one]

/-- The consecutive-pair sum written as an indexed sum over positions. -/
theorem pathSum_eq_sum_range (m : DistanceMat) :
    ∀ s : List Nat, m.pathSum s =
      ∑ t in Finset.range (s.length - 1),
        m.dAt (s.getD t 0) (s.getD (t + 1) 0) := by
  intro s
  match s with
  | [] => simp [pathSum]
  | [a] => simp [pathSum]
  | a :: b :: l =>
    have ih := pathSum_eq_sum_range m (b :: l)
    rw [pathSum_cons_cons, ih]
    have hlen : (a :: b :: l).length - 1 = ((b :: l).length - 1) + 1 := by
      simp
    rw [hlen, Finset.sum_range_succ']
    simp only [List.getD_cons_succ, List.getD_cons_zero]
    rw [add_comm]

/-- The headD of a list with default 0 is its entry at position 0. -/
theorem headD_eq_getD_zero : ∀ s : List Nat, s.headD 0 = s.getD 0 0 := by
  intro s
  cases s <;> rfl

/-- The getLastD of a list with default 0 is its entry at the last position. -/
theorem getLastD_eq_getD_last : ∀ s : List Nat,
    s.getLastD 0 = s.getD (s.length - 1) 0 := by
  intro s
  rw [List.getLastD_eq_getLast?, List.getLast?_eq_getElem?,
    List.getD_eq_getElem?_getD]

end DistanceMat

/-- The example table is square. -/
theorem testMat_square : testMat.Square := by
  intro row hrow
  simp only [testMat, DistanceMat.new] at hrow
  fin_cases hrow <;> rfl

/-- The example table is symmetric. -/
theorem testMat_symm : testMat.Symm := by
  intro i hi j hj
  simp only [testMat, DistanceMat.n_units, DistanceMat.new,
    List.length] at hi hj
  interval_cases i <;> interval_cases j <;> rfl

/-- Claim C2: on a square table, get_distance of a nonempty in-range sequence
s of length k is d[s[k-1]][s[0]] plus the sum over t of d[s[t]][s[t+1]]; and on
the example table the five example evaluations of the specification hold. -/
theorem C2_get_distance_formula (m : DistanceMat) (s : List Nat)
    (hsq : m.Square) (hne : s ≠ []) (hin : ∀ x ∈ s, x < m.n_units) :
    m.get_distance s = some (m.dAt (s.getD (s.length - 1) 0) (s.getD 0 0) +
      ∑ t in Finset.range (s.length - 1),
        m.dAt (s.getD t 0) (s.getD (t + 1) 0))
    ∧ testMat.get_distance [1, 0, 2] = some 6
    ∧ testMat.get_distance [0, 0] = some 0
    ∧ testMat.get_distance [0, 1] = some 2
    ∧ testMat.get_distance [0, 2] = some 4
    ∧ testMat.get_distance [0, 2, 1, 2] = some 10 := by
  refine ⟨?_, ?_, ?_, ?_, ?_, ?_⟩
  · rw [DistanceMat.get_distance_eq_tourLen m s hsq hne hin,
      DistanceMat.tourLen, DistanceMat.pathSum_eq_sum_range,
      DistanceMat.headD_eq_getD_zero, DistanceMat.getLastD_eq_getD_last]
  all_goals norm_num [testMat, DistanceMat.get_distance, DistanceMat.entry,
    DistanceMat.step, DistanceMat.new]

/-- Witness for C2 at the example table and the route 1, 0, 2. -/
theorem C2_get_distance_formula_witness :
    testMat.get_distance [1, 0, 2] = some 6 :=
  (C2_get_distance_formula testMat [1, 0, 2] testMat_square (by simp)
    (by decide)).2.1

/-- Claim C3: get_distance validates nothing about its input being a
permutation: every nonempty in-range sequence, repeated or missing nodes
included, yields a value, namely the wrap-around term plus the
consecutive-pair sum. -/
theorem C3_no_validation (m : DistanceMat) (s : List Nat)
    (hsq : m.Square) (hne : s ≠ []) (hin : ∀ x ∈ s, x < m.n_units) :
    (m.get_distance s).isSome = true ∧
      m.get_distance s = some (m.tourLen s) := by
  refine ⟨?_, DistanceMat.get_distance_eq_tourLen m s hsq hne hin⟩
  rw [DistanceMat.get_distance_eq_tourLen m s hsq hne hin]
  rfl

/-- Witness for C3 at a sequence with a repeated node and a missing node. -/
theorem C3_no_validation_witness :
    (testMat.get_distance [0, 2, 1, 2]).isSome = true :=
  (C3_no_validation testMat [0, 2, 1, 2] testMat_square (by simp)
    (by decide)).1

/-- Claim C4 counterexample: the constructor accepts the table with the single
row 5, whose diagonal entry is nonzero, and get_distance on the singleton
route 0 then returns 5, not 0. -/
theorem C4_singleton_counterexample :
    (DistanceMat.new [[5]]).get_distance [0] = some 5 ∧
      (5 : DistVal) ≠ 0 := by
  refine ⟨rfl, ?_⟩
  norm_num

/-- Claim C4 amended: for every square table and in-range index x such that
the diagonal entry at x is zero (the invariant the specification assumes of
accepted tables), get_distance on the singleton x returns 0. -/
theorem C4_singleton_zero (m : DistanceMat) (x : Nat) (hsq : m.Square)
    (hx : x < m.n_units) (hdiag : m.dAt x x = 0) :
    m.get_distance [x] = some 0 := by
  have h := DistanceMat.get_distance_eq_tourLen m [x] hsq (by simp)
    (by simpa using hx)
  rw [h, DistanceMat.tourLen]
  simp [DistanceMat.pathSum, List.getLastD, List.headD, hdiag]

/-- Witness for the amended C4 at the example table and index 1. -/
theorem C4_singleton_zero_witness : testMat.get_distance [1] = some 0 :=
  C4_singleton_zero testMat 1 testMat_square (by decide) rfl

/-- Claim C5 counterexample: the constructor accepts verbatim the table with
rows [1, 2] and [3], which is non-square, asymmetric and has a nonzero
diagonal, and a fitness query afterwards succeeds, so nothing is refused at
construction time. -/
theorem C5_construction_counterexample :
    (DistanceMat.new [[1, 2], [3]]).distances = [[1, 2], [3]] ∧
      (DistanceMat.new [[1, 2], [3]]).get_distance [0] = some 1 :=
  ⟨rfl, rfl⟩

/-- Claim C5 amended: construction performs no validation: new stores any
table verbatim, non-square, asymmetric or nonzero-diagonal tables included,
and get_distance afterwards answers queries against the stored table. -/
theorem C5_new_no_validation (d : List (List DistVal)) :
    (DistanceMat.new d).distances = d := rfl

/-- Claim C6: on a square symmetric table, get_distance of the reverse of a
nonempty in-range sequence equals get_distance of the sequence. -/
theorem C6_reverse_invariant (m : DistanceMat) (s : List Nat)
    (hsq : m.Square) (hsym : m.Symm) (hne : s ≠ [])
    (hin : ∀ x ∈ s, x < m.n_units) :
    m.get_distance s.reverse = m.get_distance s := by
  have hrevne : s.reverse ≠ [] := by simpa using hne
  have hrevin : ∀ x ∈ s.reverse, x < m.n_units := fun x hx =>
    hin x (List.mem_reverse.mp hx)
  rw [DistanceMat.get_distance_eq_tourLen m s.reverse hsq hrevne hrevin,
    DistanceMat.get_distance_eq_tourLen m s hsq hne hin,
    DistanceMat.tourLen_reverse m hsym s hne hin]

/-- Witness for C6 at the example table and the route 1, 0, 2. -/
theorem C6_reverse_invariant_witness :
    testMat.get_distance ([1, 0, 2] : List Nat).reverse =
      testMat.get_distance [1, 0, 2] :=
  C6_reverse_invariant testMat [1, 0, 2] testMat_square testMat_symm
    (by simp) (by decide)

/-- Claim C7: n_units of a matrix built from an n-row table is n. -/
theorem C7_n_units_dim (d : List (List DistVal)) :
    (DistanceMat.new d).n_units = d.length := rfl

/-- Claim C8: on a square table, a nonempty sequence of in-range indices never
reaches the out-of-bounds branch of get_distance (a value is returned), while
on the example 3-by-3 table the out-of-range singleton 3 makes the lookup
fail instead of returning a value. -/
theorem C8_in_bounds (m : DistanceMat) (s : List Nat) (hsq : m.Square)
    (hne : s ≠ []) (hin : ∀ x ∈ s, x < m.n_units) :
    (m.get_distance s).isSome = true ∧ testMat.get_distance [3] = none := by
  refine ⟨?_, rfl⟩
  rw [DistanceMat.get_distance_eq_tourLen m s hsq hne hin]
  rfl

/-- Witness for C8 at the example table and the route 0, 1, 2. -/
theorem C8_in_bounds_witness :
    (testMat.get_distance [0, 1, 2]).isSome = true ∧
      testMat.get_distance [3] = none :=
  C8_in_bounds testMat [0, 1, 2] testMat_square (by simp) (by decide)

/-- Claim C9: get_distance on the empty route fails for every table: the
index computation route.len() - 1 underflows, modelled by none. -/
theorem C9_empty_route_fails (m : DistanceMat) : m.get_distance [] = none :=
  rfl

/-- Claim C10: get_distance is invariant under cyclic rotation of a nonempty
in-range sequence over a square table, symmetric or not. -/
theorem C10_rotation_invariant (m : DistanceMat) (s : List Nat) (k : Nat)
    (hsq : m.Square) (hne : s ≠ []) (hin : ∀ x ∈ s, x < m.n_units) :
    m.get_distance (s.rotate k) = m.get_distance s := by
  have hrne : s.rotate k ≠ [] := by
    intro h
    apply hne
    have hlen := congrArg List.length h
    rw [List.length_rotate] at hlen
    exact List.length_eq_zero.mp hlen
  have hrin : ∀ x ∈ s.rotate k, x < m.n_units := fun x hx =>
    hin x (List.mem_rotate.mp hx)
  rw [DistanceMat.get_distance_eq_tourLen m (s.rotate k) hsq hrne hrin,
    DistanceMat.get_distance_eq_tourLen m s hsq hne hin,
    DistanceMat.tourLen_rotate m k s]

/-- Witness for C10 at the example table, the route 1, 0, 2 and rotation 1. -/
theorem C10_rotation_invariant_witness :
    testMat.get_distance (([1, 0, 2] : List Nat).rotate 1) =
      testMat.get_distance [1, 0, 2] :=
  C10_rotation_invariant testMat [1, 0, 2] 1 testMat_square (by simp)
    (by decide)

/-- Modelled from the spec: the ordered-crossover operator of the Individual
component (the route and utils modules of the repository, whose source files
are not under src; only the distance matrix is).  Following section 4.3 of the
specification: the child keeps parent one's span over positions cut i up to
cut j verbatim; parent two is walked from position cut j onward, wrapping to
its start, collecting the nodes not present in the kept span, in the order
encountered, until the complement count is reached; the collected nodes fill
the child positions after the span first and then, wrapping, the positions
before it. -/
def crossover (p1 p2 : List Nat) (i j : Nat) : List Nat :=
  let n := p1.length
  let within := (p1.take j).drop i
  let walk := p2.drop j ++ p2.take j
  let collected :=
    (walk.filter (fun x => decide (x ∉ within))).take (n - (j - i))
  let afterFill := collected.take (n - j)
  let beforeFill := collected.drop (n - j)
  beforeFill ++ within ++ afterFill

/-- The kept span is a sublist of parent one. -/
theorem within_sublist (p1 : List Nat) (i j : Nat) :
    ((p1.take j).drop i).Sublist p1 :=
  (List.drop_sublist i (p1.take j)).trans (List.take_sublist j p1)

/-- Claim C1: for parents that are permutations of the range 0 to n - 1 and
cut indices i at most j at most n, the crossover child is again a permutation
of the range: it contains each index exactly once. -/
theorem C1_crossover_perm (p1 p2 : List Nat) (n i j : Nat)
    (hp1 : p1.Perm (List.range n)) (hp2 : p2.Perm (List.range n))
    (hij : i ≤ j) (hjn : j ≤ n) :
    (crossover p1 p2 i j).Perm (List.range n) := by
  have hlen1 : p1.length = n := by
    rw [hp1.length_eq, List.length_range]
  have hnodup1 : p1.Nodup := hp1.nodup_iff.mpr (List.nodup_range n)
  set within := (p1.take j).drop i with hwithin
  have hwnodup : within.Nodup := (within_sublist p1 i j).nodup hnodup1
  have hwsub : ∀ x ∈ within, x ∈ List.range n := fun x hx =>
    hp1.mem_iff.mp ((within_sublist p1 i j).subset hx)
  have hwlen : within.length = j - i := by
    rw [hwithin, List.length_drop, List.length_take, hlen1,
      min_eq_left hjn]
  set walk := p2.drop j ++ p2.take j with hwalk
  have hwalkperm : walk.Perm (List.range n) := by
    have h1 : (p2.drop j ++ p2.take j).Perm (p2.take j ++ p2.drop j) :=
      List.perm_append_comm
    rw [List.take_append_drop] at h1
    exact h1.trans hp2
  set pred := fun x => decide (x ∉ within) with hpred
  set collected := (walk.filter pred).take (n - (j - i)) with hcollected
  have hfilterperm : (walk.filter pred).Perm ((List.range n).filter pred) :=
    hwalkperm.filter pred
  have hinperm : ((List.range n).filter
      (fun x => decide (x ∈ within))).Perm within := by
    rw [List.perm_ext_iff_of_nodup
      ((List.nodup_range n).filter _) hwnodup]
    intro a
    simp only [List.mem_filter, decide_eq_true_eq]
    exact ⟨fun h => h.2, fun h => ⟨hwsub a h, h⟩⟩
  have hsplit : ((List.range n).filter (fun x => decide (x ∈ within)) ++
      (List.range n).filter pred).Perm (List.range n) := by
    have h := List.filter_append_perm
      (fun x => decide (x ∈ within)) (List.range n)
    have hnot : (fun x => !decide (x ∈ within)) = pred := by
      funext x
      rw [hpred]
      simp [decide_not]
    rw [hnot] at h
    exact h
  have hlenfil : ((List.range n).filter pred).length = n - (j - i) := by
    have hlen := hsplit.length_eq
    rw [List.length_append, List.length_range, hinperm.length_eq, hwlen]
      at hlen
    omega
  have hcolleneq : (walk.filter pred).length = n - (j - i) := by
    rw [hfilterperm.length_eq, hlenfil]
  have hcolfull : collected = walk.filter pred := by
    rw [hcollected, List.take_of_length_le (le_of_eq hcolleneq)]
  have hchild : crossover p1 p2 i j =
      collected.drop (n - j) ++ within ++ collected.take (n - j) := by
    rw [crossover, hlen1]
  rw [hchild]
  have hperm1 : (collected.drop (n - j) ++ within ++
      collected.take (n - j)).Perm
      (collected.take (n - j) ++ (collected.drop (n - j) ++ within)) :=
    List.perm_append_comm
  have hperm2 : (collected.take (n - j) ++ (collected.drop (n - j) ++
      within)).Perm (collected.take (n - j) ++ collected.drop (n - j) ++
      within) := by
    rw [List.append_assoc]
  have hperm3 : (collected.take (n - j) ++ collected.drop (n - j) ++
      within).Perm (within ++ (List.range n).filter pred) := by
    rw [List.take_append_drop, hcolfull]
    exact (List.perm_append_comm).trans
      (List.Perm.append_left within hfilterperm)
  have hperm4 : (within ++ (List.range n).filter pred).Perm
      (List.range n) :=
    (List.Perm.append_right _ hinperm.symm).trans hsplit
  exact ((hperm1.trans hperm2).trans hperm3).trans hperm4

/-- Witness for C1 at two concrete parent permutations of size four with
cuts one and three. -/
theorem C1_crossover_perm_witness :
    (crossover [0, 1, 2, 3] [3, 1, 0, 2] 1 3).Perm (List.range 4) :=
  C1_crossover_perm [0, 1, 2, 3] [3, 1, 0, 2] 4 1 3 (by decide) (by decide)
    (by decide) (by decide)
